import Mathlib

/-!
Verification of the `safe_print` terminal sanitizer (`src/safe_print.py`).

The development shallowly embeds the program:

* `Regex` / `mrun` model the fragment of Python's `re` engine that the
  program uses: ordered alternation, greedy quantifiers, character
  classes, literals and negative lookahead, with `re.match` anchoring at
  the start and returning the end offset of the first match found by the
  backtracking search.  `mrun` is written in continuation-passing style;
  a fuel argument (decremented at every step) makes it structurally
  recursive, and the fuel supplied by `matchEnd` is far larger than any
  actual backtracking depth for the patterns the program builds.
* `exclude_pattern` and `get_color_pattern` mirror the regex composition
  of the source line by line.
* `scanE` models the scanning `while` loop of `safe_print`, including
  the `NameError` that Python would raise if the branch consulting
  `sgr_pattern` were ever reached with `colors` falsy.
* `safe_print` assembles the pieces exactly as the Python entry point.
-/

namespace SP

/-- Abstract syntax for the regex fragment used by the program.
`chars cs` is a character class (a single character from `cs`),
`nlook r` is the negative lookahead `(?!r)`. -/
inductive Regex : Type where
  | eps : Regex
  | chars : List Char → Regex
  | cat : Regex → Regex → Regex
  | alt : Regex → Regex → Regex
  | star : Regex → Regex
  | nlook : Regex → Regex
deriving Repr, DecidableEq

/-- A literal string, e.g. `re.escape`d excluded tokens or `";5;"`. -/
def Regex.lit : List Char → Regex
  | [] => .eps
  | c :: cs => .cat (.chars [c]) (Regex.lit cs)

/-- Ordered alternation `r1|r2|...|rn` (left alternative preferred,
as in Python). -/
def Regex.alts : List Regex → Regex
  | [] => .chars []
  | [r] => r
  | r :: rs => .alt r (Regex.alts rs)

/-- Greedy `r?`: try `r` first, then the empty match. -/
def Regex.opt (r : Regex) : Regex := .alt r .eps

/-- Greedy `r+` as `r r*`. -/
def Regex.plus (r : Regex) : Regex := .cat r (.star r)

/-- Backtracking matcher in continuation-passing style, mirroring the
search order of Python's `re`: alternatives left to right, quantifiers
greedy, lookahead zero-width.  `mrun f r s k` tries to match `r` at the
front of `s`; on success of a branch it calls the continuation `k` with
the remaining suffix, and backtracks when `k` fails.  The fuel `f` is
decremented at every step and only bounds the recursion depth. -/
def mrun : Nat → Regex → List Char → (List Char → Option (List Char)) → Option (List Char)
  | 0, _, _, _ => none
  | _ + 1, .eps, s, k => k s
  | _ + 1, .chars _, [], _ => none
  | _ + 1, .chars cs, c :: t, k => if cs.contains c then k t else none
  | f + 1, .cat a b, s, k => mrun f a s fun t => mrun f b t k
  | f + 1, .alt a b, s, k =>
    match mrun f a s k with
    | some t => some t
    | none => mrun f b s k
  | f + 1, .star r, s, k =>
    match mrun f r s (fun t => mrun f (.star r) t k) with
    | some t => some t
    | none => k s
  | f + 1, .nlook r, s, k =>
    match mrun f r s (fun t => some t) with
    | some _ => none
    | none => k s

/-- Fuel used when matching against `s`; generously larger than the
backtracking depth any of the program's patterns can reach on `s`. -/
def matchFuel (s : List Char) : Nat := 1000 + 1000 * s.length

/-- `matchEnd r s` models `re.match(r, s)` followed by `.end()`:
`some e` when the pattern matches a prefix of length `e` of `s`. -/
def matchEnd (r : Regex) (s : List Char) : Option Nat :=
  match mrun (matchFuel s) r s (fun t => some t) with
  | some t => some (s.length - t.length)
  | none => none

/-- Python truthiness of an `Optional[bool]` (`None` and `False` falsy). -/
def truthy : Option Bool → Bool
  | some b => b
  | none => false

/-- Python truthiness of an `Optional[list[str]]` (`None` and `[]` falsy). -/
def truthyList : Option (List String) → Bool
  | some l => !l.isEmpty
  | none => false

/-- `exclude_pattern(original_pattern, negate_pattern)` from the source:
`(?!(?:t1|t2|...))original`, the tokens taken literally (`re.escape`). -/
def exclude_pattern (original : Regex) (negate : List (List Char)) : Regex :=
  .cat (.nlook (Regex.alts (negate.map Regex.lit))) original

/-- The digit class `[0-9]`. -/
def digitChars : List Char := ['0', '1', '2', '3', '4', '5', '6', '7', '8', '9']

/-- `([0-9]|2[1-5]|2[7-9]|3[0-7]|39|4[0-7]|49|9[0-7]|10[0-7])`,
the single 4-bit SGR parameter of the source (line 95). -/
def sgr4bitCode : Regex :=
  Regex.alts
    [ .chars digitChars,
      .cat (.chars ['2']) (.chars ['1', '2', '3', '4', '5']),
      .cat (.chars ['2']) (.chars ['7', '8', '9']),
      .cat (.chars ['3']) (.chars ['0', '1', '2', '3', '4', '5', '6', '7']),
      Regex.lit ['3', '9'],
      .cat (.chars ['4']) (.chars ['0', '1', '2', '3', '4', '5', '6', '7']),
      Regex.lit ['4', '9'],
      .cat (.chars ['9']) (.chars ['0', '1', '2', '3', '4', '5', '6', '7']),
      .cat (Regex.lit ['1', '0']) (.chars ['0', '1', '2', '3', '4', '5', '6', '7']) ]

/-- The class `[;]` used pervasively as separator. -/
def semi : Regex := .chars [';']

/-- `([0-1]?[0-9]?[0-9]|2[0-4][0-9]|25[0-5])` — an integer 0–255
(source line 101). -/
def eightBitArg : Regex :=
  Regex.alts
    [ .cat (Regex.opt (.chars ['0', '1']))
        (.cat (Regex.opt (.chars digitChars)) (.chars digitChars)),
      .cat (.chars ['2']) (.cat (.chars ['0', '1', '2', '3', '4']) (.chars digitChars)),
      .cat (Regex.lit ['2', '5']) (.chars ['0', '1', '2', '3', '4', '5']) ]

/-- `get_color_pattern(extra_colors, exclude_colors)` from the source,
composing the same sub-patterns in the same order. -/
def get_color_pattern (extra_colors : Option Bool)
    (exclude_colors : Option (List String)) : Regex :=
  let excl : List (List Char) :=
    match exclude_colors with
    | some l => l.map String.toList
    | none => []
  -- line 95-97: the 4-bit parameter, guarded by the lookahead when excluding
  let sgr_4bit_0 :=
    if truthyList exclude_colors then exclude_pattern sgr4bitCode excl else sgr4bitCode
  -- line 98: `;*{sgr_4bit}(;{sgr_4bit})*`
  let sgr_4bit :=
    Regex.cat (.star semi) (.cat sgr_4bit_0 (.star (.cat semi sgr_4bit_0)))
  -- line 99: `(;*|{sgr_4bit})?m`
  let sgr_re :=
    Regex.cat (Regex.opt (.alt (.star semi) sgr_4bit)) (.chars ['m'])
  if truthy extra_colors then
    -- line 102: `[3-4]8;5;{eight_bit}`
    let sgr_8bit :=
      Regex.cat (.chars ['3', '4'])
        (.cat (.chars ['8']) (.cat (Regex.lit [';', '5', ';']) eightBitArg))
    -- line 103: `[3-4]8;2;{eight_bit};{eight_bit};{eight_bit}`
    let sgr_24bit :=
      Regex.cat (.chars ['3', '4'])
        (.cat (.chars ['8'])
          (.cat (Regex.lit [';', '2', ';'])
            (.cat eightBitArg
              (.cat (.chars [';'])
                (.cat eightBitArg (.cat (.chars [';']) eightBitArg))))))
    -- line 104-106: `({sgr_8bit}|{sgr_24bit})`, guarded when excluding
    let sgr_extra_0 := Regex.alt sgr_8bit sgr_24bit
    let sgr_extra :=
      if truthyList exclude_colors then exclude_pattern sgr_extra_0 excl else sgr_extra_0
    -- line 107: `{sgr_re}|({sgr_4bit};+)*;*{sgr_extra};*(;+{sgr_4bit})*m`
    Regex.alt sgr_re
      (.cat (.star (.cat sgr_4bit (Regex.plus semi)))
        (.cat (.star semi)
          (.cat sgr_extra
            (.cat (.star semi)
              (.cat (.star (.cat (Regex.plus semi) sgr_4bit)) (.chars ['m']))))))
  else sgr_re

/-- `allowed_space = {ord("\n"), ord("\t")}` from the source. -/
def allowed_space : List Nat := [10, 9]

/-- The pass-through test of the scanner:
`0x20 <= hex_value <= 0x7e or hex_value in allowed_space`. -/
def isSafeChar (c : Char) : Bool :=
  (0x20 ≤ c.toNat && c.toNat ≤ 0x7e) || allowed_space.contains c.toNat

/-- `i + 1 < length and untrusted_text[i + 1] == "["`: the character
after the current one exists and is `[`. -/
def isOpenBracket : List Char → Bool
  | [] => false
  | d :: _ => d == '['

/-- The scanning `while` loop of `safe_print`, producing the `output`
list of appended strings.  The `Except` layer records the two ways the
Python loop could fail to return: the (unreachable) `NameError` when the
escape branch consults `sgr_pattern` although `colors` was falsy, and
exhaustion of the (always sufficient) loop fuel. -/
def scanE : Nat → Option Bool → Option Regex → List Char → Except String (List (List Char))
  | 0, _, _, _ => .error "loop fuel exhausted"
  | _ + 1, _, _, [] => .ok []
  | fl + 1, colors, pat, c :: rest =>
    if isSafeChar c then
      (scanE fl colors pat rest).map (fun out => [c] :: out)
    else if truthy colors && c.toNat == 0x1b && isOpenBracket rest then
      match pat with
      | none => .error "NameError: name sgr_pattern is not defined"
      | some p =>
        match matchEnd p rest.tail with
        | some e =>
          (scanE fl colors pat (rest.tail.drop e)).map
            (fun out => (c :: '[' :: rest.tail.take e) :: out)
        | none => (scanE fl colors pat rest).map (fun out => ['_'] :: out)
    else (scanE fl colors pat rest).map (fun out => ['_'] :: out)

/-- The `sgr_pattern` variable of `safe_print`: defined only when
`colors` is truthy. -/
def sgr_pattern (colors extra_colors : Option Bool)
    (exclude_colors : Option (List String)) : Option Regex :=
  if truthy colors then some (get_color_pattern extra_colors exclude_colors) else none

/-- `safe_print(untrusted_text, colors, extra_colors, exclude_colors)`.
The defaults of the source are `colors = some true`,
`extra_colors = some true`, `exclude_colors = none`. -/
def safe_print (untrusted_text : String) (colors : Option Bool)
    (extra_colors : Option Bool) (exclude_colors : Option (List String)) : String :=
  let cs := untrusted_text.toList
  match scanE (cs.length + 1) colors (sgr_pattern colors extra_colors exclude_colors) cs with
  | .ok out => String.mk out.flatten
  | .error _ => ""

/-! ## Matching derivations

`RMatchB r s t f` says: the matcher can consume `s` down to the suffix
`t` while matching `r`, within fuel `f`, the fuel index mirroring
exactly how `mrun` threads its fuel.  Negative lookahead is interpreted
by the matcher itself. -/

inductive RMatchB : Regex → List Char → List Char → Nat → Prop where
  | eps : ∀ {s : List Char} {f : Nat}, RMatchB .eps s s (f + 1)
  | chars : ∀ {cs : List Char} {c : Char} {t : List Char} {f : Nat},
      c ∈ cs → RMatchB (.chars cs) (c :: t) t (f + 1)
  | cat : ∀ {a b : Regex} {s t u : List Char} {f : Nat},
      RMatchB a s t f → RMatchB b t u f → RMatchB (.cat a b) s u (f + 1)
  | altL : ∀ {a b : Regex} {s t : List Char} {f : Nat},
      RMatchB a s t f → RMatchB (.alt a b) s t (f + 1)
  | altR : ∀ {a b : Regex} {s t : List Char} {f : Nat},
      RMatchB b s t f → RMatchB (.alt a b) s t (f + 1)
  | starNil : ∀ {r : Regex} {s : List Char} {f : Nat}, RMatchB (.star r) s s (f + 1)
  | starCons : ∀ {r : Regex} {s t u : List Char} {f : Nat},
      RMatchB r s t f → RMatchB (.star r) t u f → RMatchB (.star r) s u (f + 1)
  | nlookC : ∀ {r : Regex} {s : List Char} {f : Nat},
      mrun f r s (fun t => some t) = none → RMatchB (.nlook r) s s (f + 1)

/-! ## Auxiliary definitions used by the statements and proofs -/

/-- The scan as `safe_print` invokes it: fuel `length + 1`, which the
totality results show is always sufficient. -/
def scan (colors : Option Bool) (pat : Option Regex) (s : List Char) :
    Except String (List (List Char)) :=
  scanE (s.length + 1) colors pat s

/-- Regexes containing no negative lookahead (the shape of every
pattern the program builds when `exclude_colors` is falsy). -/
def LookFree : Regex → Bool
  | .eps => true
  | .chars _ => true
  | .cat a b => LookFree a && LookFree b
  | .alt a b => LookFree a && LookFree b
  | .star r => LookFree r
  | .nlook _ => false

/-- Regexes that never consume the terminator `m`. -/
def NoM : Regex → Bool
  | .eps => true
  | .chars cs => !cs.contains 'm'
  | .cat a b => NoM a && NoM b
  | .alt a b => NoM a && NoM b
  | .star r => NoM r
  | .nlook _ => true

/-- Regexes whose every match consumes some `m`-free word followed by a
single final `m` — the shape of every pattern `get_color_pattern`
builds, which is what makes the end offset of a match predictable. -/
def EndsM : Regex → Bool
  | .eps => false
  | .chars cs => cs == ['m']
  | .cat a b => NoM a && EndsM b
  | .alt a b => EndsM a && EndsM b
  | .star _ => false
  | .nlook _ => false

/-- The SGR pattern of the default configuration class with extra
colors disabled and no exclusions. -/
def pat_base : Regex := get_color_pattern (some false) none

/-- The SGR pattern of the default configuration: extra colors
enabled, no exclusions. -/
def pat_extra : Regex := get_color_pattern (some true) none

/-- A single 4-bit SGR parameter as enumerated by the source grammar:
0–9, 21–25, 27–29, 30–37, 39, 40–47, 49, 90–97 or 100–107, written as
its literal digit string. -/
def validParamB : List Char → Bool
  | [c] => digitChars.contains c
  | ['2', d] => ['1', '2', '3', '4', '5', '7', '8', '9'].contains d
  | ['3', d] => ['0', '1', '2', '3', '4', '5', '6', '7'].contains d || d == '9'
  | ['4', d] => ['0', '1', '2', '3', '4', '5', '6', '7'].contains d || d == '9'
  | ['9', d] => ['0', '1', '2', '3', '4', '5', '6', '7'].contains d
  | ['1', '0', d] => ['0', '1', '2', '3', '4', '5', '6', '7'].contains d
  | _ => false

/-- `";p2;p3...;pn"`: the params after the first, each preceded by a
single separating semicolon. -/
def tailJoin (ps : List (List Char)) : List Char :=
  (ps.map (fun p => ';' :: p)).flatten

/-- Parameters joined by single semicolons (empty for no parameters). -/
def joinParams : List (List Char) → List Char
  | [] => []
  | p :: ps => p ++ tailJoin ps

/-- Soundness of the matcher: a successful run both yields a matching
derivation and passes the continuation a suffix on which it succeeded. -/
theorem mrun_sound : ∀ (f : Nat) (r : Regex) (s : List Char)
    (k : List Char → Option (List Char)) (out : List Char),
    mrun f r s k = some out → ∃ t, RMatchB r s t f ∧ k t = some out := by
  intro f
  induction f with
  | zero => intro r s k out h; simp [mrun] at h
  | succ f ih =>
    intro r s k out h
    cases r with
    | eps => exact ⟨s, .eps, h⟩
    | chars cs =>
      cases s with
      | nil => simp [mrun] at h
      | cons c t =>
        simp only [mrun] at h
        by_cases hc : cs.contains c
        · rw [if_pos hc] at h
          exact ⟨t, .chars (by simpa using hc), h⟩
        · rw [if_neg hc] at h; exact absurd h (by simp)
    | cat a b =>
      simp only [mrun] at h
      obtain ⟨t, hda, hk⟩ := ih a s _ out h
      obtain ⟨u, hdb, hk'⟩ := ih b t k out hk
      exact ⟨u, .cat hda hdb, hk'⟩
    | alt a b =>
      simp only [mrun] at h
      cases hA : mrun f a s k with
      | some w =>
        rw [hA] at h
        obtain ⟨t, hd, hk⟩ := ih a s k w hA
        exact ⟨t, .altL hd, by simpa [← h] using hk⟩
      | none =>
        rw [hA] at h
        obtain ⟨t, hd, hk⟩ := ih b s k out h
        exact ⟨t, .altR hd, hk⟩
    | star r =>
      simp only [mrun] at h
      cases hI : mrun f r s (fun t => mrun f (.star r) t k) with
      | some w =>
        rw [hI] at h
        obtain ⟨t, hd, hk⟩ := ih r s _ w hI
        obtain ⟨u, hd', hk'⟩ := ih (.star r) t k w hk
        exact ⟨u, .starCons hd hd', by simpa [← h] using hk'⟩
      | none =>
        rw [hI] at h
        exact ⟨s, .starNil, h⟩
    | nlook r =>
      simp only [mrun] at h
      cases hI : mrun f r s (fun t => some t) with
      | some w => rw [hI] at h; exact absurd h (by simp)
      | none => rw [hI] at h; exact ⟨s, .nlookC hI, h⟩

/-- A matching derivation only ever peels characters off the front:
the final state is a suffix of the initial one. -/
theorem RMatchB_append {r : Regex} {s t : List Char} {f : Nat}
    (h : RMatchB r s t f) : ∃ u, s = u ++ t := by
  induction h with
  | eps => exact ⟨[], rfl⟩
  | chars _ => exact ⟨[_], rfl⟩
  | cat _ _ ih1 ih2 =>
    obtain ⟨u1, rfl⟩ := ih1; obtain ⟨u2, rfl⟩ := ih2
    exact ⟨u1 ++ u2, by simp⟩
  | altL _ ih => exact ih
  | altR _ ih => exact ih
  | starNil => exact ⟨[], rfl⟩
  | starCons _ _ ih1 ih2 =>
    obtain ⟨u1, rfl⟩ := ih1; obtain ⟨u2, rfl⟩ := ih2
    exact ⟨u1 ++ u2, by simp⟩
  | nlookC _ => exact ⟨[], rfl⟩

/-- What a successful `re.match` means: the matched prefix is governed
by a derivation, and the end offset is its length. -/
theorem matchEnd_sound {r : Regex} {s : List Char} {e : Nat}
    (h : matchEnd r s = some e) :
    ∃ u t, s = u ++ t ∧ u.length = e ∧ e ≤ s.length ∧
      RMatchB r s t (matchFuel s) := by
  unfold matchEnd at h
  cases hm : mrun (matchFuel s) r s (fun t => some t) with
  | none => rw [hm] at h; exact absurd h (by simp)
  | some w =>
    rw [hm] at h
    simp only [Option.some.injEq] at h
    obtain ⟨t, hd, hk⟩ := mrun_sound _ _ _ _ _ hm
    have ht : w = t := by simpa using hk.symm
    subst ht
    obtain ⟨u, rfl⟩ := RMatchB_append hd
    simp only [List.length_append] at h
    exact ⟨u, w, rfl, by omega, by simp [List.length_append]; omega, hd⟩

/-! ## Scanner lemmas -/

theorem except_map_ok {α β : Type} (g : α → β) (x : Except String α) (out : β)
    (h : x.map g = .ok out) : ∃ a, x = .ok a ∧ out = g a := by
  cases x with
  | error e => simp [Except.map] at h
  | ok a => exact ⟨a, rfl, by simpa [Except.map] using h.symm⟩

/-- The scanner's result is independent of the loop fuel whenever the
fuel exceeds the input length. -/
theorem scanE_fuel : ∀ (fl fl' : Nat) (colors : Option Bool) (pat : Option Regex)
    (s : List Char), s.length < fl → s.length < fl' →
    scanE fl colors pat s = scanE fl' colors pat s := by
  intro fl
  induction fl with
  | zero => intro fl' colors pat s h; omega
  | succ fl ih =>
    intro fl' colors pat s h h'
    cases fl' with
    | zero => omega
    | succ fl' =>
      cases s with
      | nil => simp [scanE]
      | cons c rest =>
        have hr : rest.length < fl := by simp at h; omega
        have hr' : rest.length < fl' := by simp at h'; omega
        simp only [scanE]
        by_cases h1 : isSafeChar c
        · rw [if_pos h1, if_pos h1, ih fl' colors pat rest hr hr']
        · rw [if_neg h1, if_neg h1]
          by_cases h2 : (truthy colors && c.toNat == 0x1b && isOpenBracket rest) = true
          · rw [if_pos h2, if_pos h2]
            cases pat with
            | none => rfl
            | some p =>
              cases hm : matchEnd p rest.tail with
              | none =>
                simp only [hm]
                rw [ih fl' colors (some p) rest hr hr']
              | some e =>
                simp only [hm]
                have hd : (rest.tail.drop e).length < fl := by
                  have := List.length_drop e rest.tail
                  have := List.length_tail rest
                  omega
                have hd' : (rest.tail.drop e).length < fl' := by
                  have := List.length_drop e rest.tail
                  have := List.length_tail rest
                  omega
                rw [ih fl' colors (some p) (rest.tail.drop e) hd hd']
          · rw [if_neg h2, if_neg h2, ih fl' colors pat rest hr hr']

/-- Totality of the loop: with enough fuel, and the pattern present
whenever `colors` is truthy (which is how `safe_print` builds it), the
scan always returns normally. -/
theorem scanE_ok : ∀ (fl : Nat) (colors : Option Bool) (pat : Option Regex)
    (s : List Char), s.length < fl → (truthy colors = true → pat ≠ none) →
    ∃ out, scanE fl colors pat s = .ok out := by
  intro fl
  induction fl with
  | zero => intro colors pat s h; omega
  | succ fl ih =>
    intro colors pat s h hpat
    cases s with
    | nil => exact ⟨[], by simp [scanE]⟩
    | cons c rest =>
      have hr : rest.length < fl := by simp at h; omega
      simp only [scanE]
      by_cases h1 : isSafeChar c
      · obtain ⟨out, ho⟩ := ih colors pat rest hr hpat
        exact ⟨[c] :: out, by rw [if_pos h1, ho]; rfl⟩
      · rw [if_neg h1]
        by_cases h2 : (truthy colors && c.toNat == 0x1b && isOpenBracket rest) = true
        · rw [if_pos h2]
          have hcol : truthy colors = true := by
            simp only [Bool.and_eq_true] at h2; exact h2.1.1
          cases pat with
          | none => exact absurd rfl (hpat hcol)
          | some p =>
            cases hm : matchEnd p rest.tail with
            | none =>
              obtain ⟨out, ho⟩ := ih colors (some p) rest hr hpat
              exact ⟨['_'] :: out, by simp only [hm, ho]; rfl⟩
            | some e =>
              have hd : (rest.tail.drop e).length < fl := by
                have := List.length_drop e rest.tail
                have := List.length_tail rest
                omega
              obtain ⟨out, ho⟩ := ih colors (some p) (rest.tail.drop e) hd hpat
              exact ⟨(c :: '[' :: rest.tail.take e) :: out, by simp only [hm, ho]; rfl⟩
        · rw [if_neg h2]
          obtain ⟨out, ho⟩ := ih colors pat rest hr hpat
          exact ⟨['_'] :: out, by rw [ho]; rfl⟩

/-- Every branch of the loop emits exactly as many characters as it
consumes, so a normal return preserves the character count. -/
theorem scanE_length : ∀ (fl : Nat) (colors : Option Bool) (pat : Option Regex)
    (s : List Char) (out : List (List Char)),
    scanE fl colors pat s = .ok out → out.flatten.length = s.length := by
  intro fl
  induction fl with
  | zero => intro colors pat s out h; simp [scanE] at h
  | succ fl ih =>
    intro colors pat s out h
    cases s with
    | nil => simp only [scanE] at h; cases h; simp
    | cons c rest =>
      simp only [scanE] at h
      by_cases h1 : isSafeChar c
      · rw [if_pos h1] at h
        obtain ⟨a, ha, rfl⟩ := except_map_ok _ _ _ h
        simp [ih _ _ _ _ ha]
      · rw [if_neg h1] at h
        by_cases h2 : (truthy colors && c.toNat == 0x1b && isOpenBracket rest) = true
        · rw [if_pos h2] at h
          cases pat with
          | none => simp at h
          | some p =>
            cases hm : matchEnd p rest.tail with
            | none =>
              simp only [hm] at h
              obtain ⟨a, ha, rfl⟩ := except_map_ok _ _ _ h
              simp [ih _ _ _ _ ha]
            | some e =>
              simp only [hm] at h
              obtain ⟨a, ha, rfl⟩ := except_map_ok _ _ _ h
              have hb : isOpenBracket rest = true := by
                simp only [Bool.and_eq_true] at h2; exact h2.2
              obtain ⟨rest2, rfl⟩ : ∃ rest2, rest = '[' :: rest2 := by
                cases rest with
                | nil => simp [isOpenBracket] at hb
                | cons d r2 =>
                  simp only [isOpenBracket, beq_iff_eq] at hb
                  exact ⟨r2, by rw [hb]⟩
              have := ih _ _ _ _ ha
              simp only [List.flatten_cons, List.length_append, List.length_cons] at *
              have ht : (List.take e rest2).length = min e rest2.length := List.length_take e rest2
              have hdr : (List.drop e rest2).length = rest2.length - e := List.length_drop e rest2
              simp only [List.tail_cons] at this ⊢
              omega
        · rw [if_neg h2] at h
          obtain ⟨a, ha, rfl⟩ := except_map_ok _ _ _ h
          simp [ih _ _ _ _ ha]

/-- `safe_print` in terms of `scan`. -/
theorem safe_print_def (s : String) (colors extra_colors : Option Bool)
    (exclude_colors : Option (List String)) :
    safe_print s colors extra_colors exclude_colors =
      match scan colors (sgr_pattern colors extra_colors exclude_colors) s.toList with
      | .ok out => String.mk out.flatten
      | .error _ => "" := rfl

/-- The pattern option handed to the loop is `some` whenever `colors`
is truthy. -/
theorem sgr_pattern_some (colors extra_colors : Option Bool)
    (exclude_colors : Option (List String)) (h : truthy colors = true) :
    sgr_pattern colors extra_colors exclude_colors =
      some (get_color_pattern extra_colors exclude_colors) := by
  simp [sgr_pattern, h]

/-- The scan `safe_print` performs always returns normally. -/
theorem scan_ok (s : List Char) (colors extra_colors : Option Bool)
    (exclude_colors : Option (List String)) :
    ∃ out, scan colors (sgr_pattern colors extra_colors exclude_colors) s = .ok out := by
  refine scanE_ok _ _ _ _ (by omega) ?_
  intro h
  rw [sgr_pattern_some _ _ _ h]
  simp

/-- Characterization of the pass-through test. -/
theorem isSafeChar_iff (c : Char) :
    isSafeChar c = true ↔
      ((0x20 ≤ c.toNat ∧ c.toNat ≤ 0x7e) ∨ c.toNat = 9 ∨ c.toNat = 10) := by
  simp [isSafeChar, allowed_space, List.contains]
  omega

theorem mk_toList (s : String) : String.mk s.toList = s := by
  cases s; rfl

/-- C3: `safe_print` returns normally for every input string and every
configuration: the scan always ends in `.ok`, never in the `NameError`
of an undefined `sgr_pattern` (unreachable because the escape branch is
guarded by `colors`) nor by running out of loop fuel, and `safe_print`
returns exactly the joined output. -/
theorem C3_totality (s : String) (colors extra_colors : Option Bool)
    (exclude_colors : Option (List String)) :
    ∃ out, scan colors (sgr_pattern colors extra_colors exclude_colors) s.toList = .ok out ∧
      safe_print s colors extra_colors exclude_colors = String.mk out.flatten := by
  obtain ⟨out, ho⟩ := scan_ok s.toList colors extra_colors exclude_colors
  exact ⟨out, ho, by rw [safe_print_def, ho]⟩

/-- C2: the output of `safe_print` always has exactly as many
characters as the input. -/
theorem C2_length_preservation (s : String) (colors extra_colors : Option Bool)
    (exclude_colors : Option (List String)) :
    (safe_print s colors extra_colors exclude_colors).length = s.length := by
  obtain ⟨out, ho⟩ := scan_ok s.toList colors extra_colors exclude_colors
  rw [safe_print_def, ho]
  have h := scanE_length _ _ _ _ _ ho
  show out.flatten.length = s.length
  rw [h]
  show s.toList.length = s.length
  rfl

theorem flatten_map_singleton (s : List Char) :
    (s.map (fun c => [c])).flatten = s := by
  induction s with
  | nil => rfl
  | cons c cs ih => simp [ih]

/-- On input made only of pass-through characters the scan emits each
character unchanged. -/
theorem scanE_all_safe : ∀ (fl : Nat) (colors : Option Bool) (pat : Option Regex)
    (s : List Char), s.length < fl → (∀ c ∈ s, isSafeChar c = true) →
    scanE fl colors pat s = .ok (s.map (fun c => [c])) := by
  intro fl
  induction fl with
  | zero => intro colors pat s h; omega
  | succ fl ih =>
    intro colors pat s h hall
    cases s with
    | nil => simp [scanE]
    | cons c rest =>
      have hr : rest.length < fl := by simp at h; omega
      simp only [scanE]
      rw [if_pos (hall c (by simp))]
      rw [ih colors pat rest hr (fun d hd => hall d (by simp [hd]))]
      rfl

/-- C4: a string consisting solely of printable ASCII (0x20–0x7E),
horizontal tab and line feed is returned unchanged by `safe_print`,
under every configuration. -/
theorem C4_identity_on_safe (s : String) (colors extra_colors : Option Bool)
    (exclude_colors : Option (List String))
    (h : ∀ c ∈ s.toList, (0x20 ≤ c.toNat ∧ c.toNat ≤ 0x7e) ∨ c.toNat = 9 ∨ c.toNat = 10) :
    safe_print s colors extra_colors exclude_colors = s := by
  rw [safe_print_def]
  rw [show scan colors (sgr_pattern colors extra_colors exclude_colors) s.toList =
      .ok (s.toList.map (fun c => [c])) from
    scanE_all_safe _ _ _ _ (by omega) (fun c hc => (isSafeChar_iff c).2 (h c hc))]
  simp only [flatten_map_singleton]
  exact mk_toList s

/-- C4 witness: the all-safe string `"ab\tc"` is returned unchanged. -/
theorem C4_identity_on_safe_witness :
    (∀ c ∈ ("ab\tc" : String).toList,
        (0x20 ≤ c.toNat ∧ c.toNat ≤ 0x7e) ∨ c.toNat = 9 ∨ c.toNat = 10) ∧
      safe_print "ab\tc" (some true) (some false) (some ["31"]) = "ab\tc" :=
  ⟨by decide, C4_identity_on_safe "ab\tc" (some true) (some false) (some ["31"]) (by decide)⟩

/-- C8: every single C0 control character other than tab, newline and
ESC, as well as DEL and every non-ASCII code point, sanitizes to a
single `_`, under every configuration. -/
theorem C8_single_char_redaction (c : Char) (colors extra_colors : Option Bool)
    (exclude_colors : Option (List String))
    (h : (c.toNat < 0x20 ∧ c.toNat ≠ 9 ∧ c.toNat ≠ 10 ∧ c.toNat ≠ 0x1b) ∨
      c.toNat = 0x7f ∨ 0x7f < c.toNat) :
    safe_print (String.mk [c]) colors extra_colors exclude_colors = "_" := by
  have hsafe : isSafeChar c = false := by
    rw [← Bool.not_eq_true, isSafeChar_iff]
    omega
  rw [safe_print_def]
  show (match scanE 2 colors _ [c] with
    | .ok out => String.mk out.flatten
    | .error _ => "") = "_"
  simp only [scanE, hsafe, Bool.false_eq_true, if_false, isOpenBracket, Bool.and_false,
    Except.map]
  rfl

/-- C8 witness: the bell character 0x07 maps to `"_"`. -/
theorem C8_single_char_redaction_witness :
    (('\x07'.toNat < 0x20 ∧ '\x07'.toNat ≠ 9 ∧ '\x07'.toNat ≠ 10 ∧ '\x07'.toNat ≠ 0x1b) ∨
        '\x07'.toNat = 0x7f ∨ 0x7f < '\x07'.toNat) ∧
      safe_print (String.mk ['\x07']) (some true) (some true) none = "_" :=
  ⟨by decide, C8_single_char_redaction '\x07' (some true) (some true) none (by decide)⟩

theorem char_eq_of_toNat {c d : Char} (h : c.toNat = d.toNat) : c = d := by
  have := Char.ofNat_toNat c
  rw [← this, h, Char.ofNat_toNat]

/-- C5: an ESC that does not start a valid sequence (at end of input,
not followed by `[`, or followed by `[` with no SGR body match) is
replaced by exactly one `_`, and scanning resumes at the very next
character with each remaining character re-classified independently; in
particular, the OSC introducer and a trailing ESC behave as specified.
-/
theorem C5_malformed_escape_recovery :
    (∀ (colors extra_colors : Option Bool) (exclude_colors : Option (List String))
      (rest : List Char),
      (rest = [] ∨
        (∃ d rest', rest = d :: rest' ∧ d ≠ '[') ∨
        (∃ rest2, rest = '[' :: rest2 ∧ truthy colors = true ∧
          matchEnd (get_color_pattern extra_colors exclude_colors) rest2 = none)) →
      scan colors (sgr_pattern colors extra_colors exclude_colors) ('\x1b' :: rest) =
        (scan colors (sgr_pattern colors extra_colors exclude_colors) rest).map
          (fun out => ['_'] :: out)) ∧
    safe_print "\x1b]8;;" (some true) (some true) none = "_]8;;" ∧
    safe_print "\x1b" (some true) (some true) none = "_" := by
  refine ⟨?_, by decide, by decide⟩
  intro colors extra_colors exclude_colors rest h
  have hsafe : isSafeChar '\x1b' = false := by decide
  show scanE (rest.length + 1 + 1) colors _ ('\x1b' :: rest) = _
  rcases h with rfl | ⟨d, rest', rfl, hd⟩ | ⟨rest2, rfl, hcol, hm⟩
  · simp only [scanE, hsafe, Bool.false_eq_true, if_false, isOpenBracket,
      Bool.and_false, scan]
  · have hob : isOpenBracket (d :: rest') = false := by
      simp [isOpenBracket, hd]
    simp only [scanE, hsafe, Bool.false_eq_true, if_false, hob, Bool.and_false, scan]
  · have hob : isOpenBracket ('[' :: rest2) = true := by simp [isOpenBracket]
    simp only [scanE, hsafe, Bool.false_eq_true, if_false, hob, hcol,
      sgr_pattern_some colors extra_colors exclude_colors hcol, List.tail_cons,
      show ('\x1b'.toNat == 0x1b) = true from rfl, Bool.and_true, Bool.and_self,
      if_true, hm, scan]

/-- C5 witness: the theorem's general part applied to the OSC-style
input `ESC "]8;;"`, whose tail starts with `]`, not `[`. -/
theorem C5_malformed_escape_recovery_witness :
    scan (some true) (sgr_pattern (some true) (some true) none) ('\x1b' :: (']' :: "8;;".toList)) =
      (scan (some true) (sgr_pattern (some true) (some true) none) (']' :: "8;;".toList)).map
        (fun out => ['_'] :: out) :=
  C5_malformed_escape_recovery.1 (some true) (some true) none (']' :: "8;;".toList)
    (Or.inr (Or.inl ⟨']', "8;;".toList, rfl, by decide⟩))

/-- C6: with `exclude_colors = ["30", "37"]` the excluded foreground
code 30 causes the whole sequence to be rejected while 31 passes
through, and with `exclude_colors = ["30"]` a sequence containing the
excluded parameter in a later guarded position is rejected as a whole.
-/
theorem C6_exclusion_semantics :
    safe_print "\x1b[30m" (some true) (some true) (some ["30", "37"]) = "_[30m" ∧
    safe_print "\x1b[31m" (some true) (some true) (some ["30", "37"]) = "\x1b[31m" ∧
    safe_print "\x1b[0;30m" (some true) (some true) (some ["30"]) = "_[0;30m" :=
  ⟨by decide, by decide, by decide⟩

/-- C7: the 8-bit color form `38;5;1` is rejected when
`extra_colors = false` (ESC redacted, the rest passed through as
printable characters) and accepted verbatim when `extra_colors = true`;
it is likewise rejected when `colors` is disabled, the extra levels
being available only when both flags are enabled. -/
theorem C7_extra_color_gating :
    safe_print "\x1b[38;5;1m" (some true) (some false) none = "_[38;5;1m" ∧
    safe_print "\x1b[38;5;1m" (some true) (some true) none = "\x1b[38;5;1m" ∧
    safe_print "\x1b[38;5;1m" (some false) (some true) none = "_[38;5;1m" :=
  ⟨by decide, by decide, by decide⟩

/-- Shape of every string the scan appends to its output. -/
theorem scanE_chunks : ∀ (fl : Nat) (colors : Option Bool) (pat : Option Regex)
    (s : List Char) (out : List (List Char)), scanE fl colors pat s = .ok out →
    ∀ chunk ∈ out,
      (∃ c, chunk = [c] ∧ isSafeChar c = true) ∨ chunk = ['_'] ∨
      (∃ p body t f, pat = some p ∧ truthy colors = true ∧
        chunk = '\x1b' :: '[' :: body ∧ RMatchB p (body ++ t) t f) := by
  intro fl
  induction fl with
  | zero => intro colors pat s out h; simp [scanE] at h
  | succ fl ih =>
    intro colors pat s out h
    cases s with
    | nil =>
      simp only [scanE] at h; cases h; intro chunk hc; simp at hc
    | cons c rest =>
      simp only [scanE] at h
      by_cases h1 : isSafeChar c
      · rw [if_pos h1] at h
        obtain ⟨a, ha, rfl⟩ := except_map_ok _ _ _ h
        intro chunk hc
        rcases List.mem_cons.1 hc with rfl | hc
        · exact Or.inl ⟨c, rfl, h1⟩
        · exact ih _ _ _ _ ha chunk hc
      · rw [if_neg h1] at h
        by_cases h2 : (truthy colors && c.toNat == 0x1b && isOpenBracket rest) = true
        · rw [if_pos h2] at h
          simp only [Bool.and_eq_true, beq_iff_eq] at h2
          obtain ⟨⟨hcol, hesc⟩, hob⟩ := h2
          cases pat with
          | none => simp at h
          | some p =>
            cases hm : matchEnd p rest.tail with
            | none =>
              simp only [hm] at h
              obtain ⟨a, ha, rfl⟩ := except_map_ok _ _ _ h
              intro chunk hc
              rcases List.mem_cons.1 hc with rfl | hc
              · exact Or.inr (Or.inl rfl)
              · exact ih _ _ _ _ ha chunk hc
            | some e =>
              simp only [hm] at h
              obtain ⟨a, ha, rfl⟩ := except_map_ok _ _ _ h
              intro chunk hc
              rcases List.mem_cons.1 hc with rfl | hc
              · obtain ⟨u, t, hsplit, hlen, _, hd⟩ := matchEnd_sound hm
                refine Or.inr (Or.inr ⟨p, rest.tail.take e, t, matchFuel rest.tail,
                  rfl, hcol, ?_, ?_⟩)
                · rw [char_eq_of_toNat (show c.toNat = '\x1b'.toNat from hesc)]
                · rw [hsplit, ← hlen, List.take_left, ← hsplit]
                  exact hd
              · exact ih _ _ _ _ ha chunk hc
        · rw [if_neg h2] at h
          obtain ⟨a, ha, rfl⟩ := except_map_ok _ _ _ h
          intro chunk hc
          rcases List.mem_cons.1 hc with rfl | hc
          · exact Or.inr (Or.inl rfl)
          · exact ih _ _ _ _ ha chunk hc

/-- C1: every character of the output is printable ASCII, tab, line
feed or the `_` placeholder, or belongs to a chunk copied verbatim that
begins with ESC `[` and whose body is consumed by the compiled SGR
pattern; and with `colors` falsy every output character is printable
ASCII, tab or line feed (never ESC, never another control character). -/
theorem C1_output_safety (s : String) (colors extra_colors : Option Bool)
    (exclude_colors : Option (List String)) :
    ∃ out, scan colors (sgr_pattern colors extra_colors exclude_colors) s.toList = .ok out ∧
      safe_print s colors extra_colors exclude_colors = String.mk out.flatten ∧
      (∀ chunk ∈ out,
        (∃ c, chunk = [c] ∧
          ((0x20 ≤ c.toNat ∧ c.toNat ≤ 0x7e) ∨ c.toNat = 9 ∨ c.toNat = 10)) ∨
        chunk = ['_'] ∨
        (∃ body t f, chunk = '\x1b' :: '[' :: body ∧
          RMatchB (get_color_pattern extra_colors exclude_colors) (body ++ t) t f)) ∧
      (truthy colors = false →
        ∀ c ∈ out.flatten,
          ((0x20 ≤ c.toNat ∧ c.toNat ≤ 0x7e) ∨ c.toNat = 9 ∨ c.toNat = 10)) := by
  obtain ⟨out, ho⟩ := scan_ok s.toList colors extra_colors exclude_colors
  have hch := scanE_chunks _ _ _ _ _ ho
  refine ⟨out, ho, by rw [safe_print_def, ho], ?_, ?_⟩
  · intro chunk hc
    rcases hch chunk hc with ⟨c, rfl, hsafe⟩ | rfl | ⟨p, body, t, f, hp, _, rfl, hd⟩
    · exact Or.inl ⟨c, rfl, (isSafeChar_iff c).1 hsafe⟩
    · exact Or.inr (Or.inl rfl)
    · refine Or.inr (Or.inr ⟨body, t, f, rfl, ?_⟩)
      have : p = get_color_pattern extra_colors exclude_colors := by
        by_cases hcol : truthy colors = true
        · rw [sgr_pattern_some colors extra_colors exclude_colors hcol] at hp
          exact (Option.some.injEq _ _ ▸ hp).symm
        · exfalso
          simp only [sgr_pattern, Bool.not_eq_true] at hp hcol
          rw [hcol] at hp; simp at hp
      rw [← this]; exact hd
  · intro hcol c hcf
    obtain ⟨chunk, hcm, hcc⟩ := by simpa using List.mem_flatten.1 hcf
    rcases hch chunk hcm with ⟨d, rfl, hsafe⟩ | rfl | ⟨p, body, t, f, _, hcol', _, _⟩
    · rw [show c = d from by simpa using hcc]
      exact (isSafeChar_iff d).1 hsafe
    · rw [show c = '_' from by simpa using hcc]
      exact Or.inl (by decide)
    · rw [hcol] at hcol'; exact absurd hcol' (by simp)

/-- C1 witness: the invariant instantiated on a mixed input under the
`colors = false` configuration. -/
theorem C1_output_safety_witness :
    ∃ out, scan (some false) (sgr_pattern (some false) (some true) none)
        ("a\x1b[31m\x07" : String).toList = .ok out ∧
      safe_print "a\x1b[31m\x07" (some false) (some true) none = String.mk out.flatten ∧
      (∀ chunk ∈ out,
        (∃ c, chunk = [c] ∧
          ((0x20 ≤ c.toNat ∧ c.toNat ≤ 0x7e) ∨ c.toNat = 9 ∨ c.toNat = 10)) ∨
        chunk = ['_'] ∨
        (∃ body t f, chunk = '\x1b' :: '[' :: body ∧
          RMatchB (get_color_pattern (some true) none) (body ++ t) t f)) ∧
      (truthy (some false) = false →
        ∀ c ∈ out.flatten,
          ((0x20 ≤ c.toNat ∧ c.toNat ≤ 0x7e) ∨ c.toNat = 9 ∨ c.toNat = 10)) :=
  C1_output_safety "a\x1b[31m\x07" (some false) (some true) none

/-! ## Completeness, monotonicity and stability of the matcher -/

/-- Completeness: a matching derivation at fuel `f` guarantees the run
at fuel `f` succeeds (with some, possibly different, result). -/
theorem mrun_complete {r : Regex} {s t : List Char} {f : Nat}
    (hd : RMatchB r s t f) :
    ∀ k : List Char → Option (List Char), (∃ x, k t = some x) →
      ∃ y, mrun f r s k = some y := by
  induction hd with
  | eps => intro k hk; simpa [mrun] using hk
  | @chars cs c t f hm =>
    intro k hk
    have hc : cs.contains c = true := by simpa using hm
    have hr : mrun (f + 1) (.chars cs) (c :: t) k = k t := by
      simp only [mrun, hc, if_true]
    rw [hr]; exact hk
  | @cat a b s t u f hda hdb iha ihb =>
    intro k hk
    simp only [mrun]
    exact iha (fun w => mrun f b w k) (ihb k hk)
  | @altL a b s t f hd ih =>
    intro k hk
    obtain ⟨y, hy⟩ := ih k hk
    exact ⟨y, by simp only [mrun, hy]⟩
  | @altR a b s t f hd ih =>
    intro k hk
    simp only [mrun]
    cases hA : mrun f a s k with
    | some w => exact ⟨w, rfl⟩
    | none => exact ih k hk
  | @starNil r s f =>
    intro k hk
    obtain ⟨x, hx⟩ := hk
    simp only [mrun]
    cases hI : mrun f r s (fun w => mrun f (.star r) w k) with
    | some w => exact ⟨w, rfl⟩
    | none => exact ⟨x, hx⟩
  | @starCons r s t u f hda hdb iha ihb =>
    intro k hk
    obtain ⟨y, hy⟩ := iha (fun w => mrun f (.star r) w k) (ihb k hk)
    exact ⟨y, by simp only [mrun, hy]⟩
  | @nlookC r s f hnone =>
    intro k hk
    simpa [mrun, hnone] using hk

/-- Derivations for lookahead-free regexes can be transported to any
larger fuel. -/
theorem RMatchB_mono {r : Regex} {s t : List Char} {f : Nat}
    (hd : RMatchB r s t f) :
    LookFree r = true → ∀ f', f ≤ f' → RMatchB r s t f' := by
  induction hd with
  | eps =>
    intro _ f' hf
    obtain ⟨g, rfl⟩ : ∃ g, f' = g + 1 := ⟨f' - 1, by omega⟩
    exact .eps
  | chars hm =>
    intro _ f' hf
    obtain ⟨g, rfl⟩ : ∃ g, f' = g + 1 := ⟨f' - 1, by omega⟩
    exact .chars hm
  | cat hda hdb iha ihb =>
    intro hlf f' hf
    simp only [LookFree, Bool.and_eq_true] at hlf
    obtain ⟨g, rfl⟩ : ∃ g, f' = g + 1 := ⟨f' - 1, by omega⟩
    exact .cat (iha hlf.1 g (by omega)) (ihb hlf.2 g (by omega))
  | altL hd ih =>
    intro hlf f' hf
    simp only [LookFree, Bool.and_eq_true] at hlf
    obtain ⟨g, rfl⟩ : ∃ g, f' = g + 1 := ⟨f' - 1, by omega⟩
    exact .altL (ih hlf.1 g (by omega))
  | altR hd ih =>
    intro hlf f' hf
    simp only [LookFree, Bool.and_eq_true] at hlf
    obtain ⟨g, rfl⟩ : ∃ g, f' = g + 1 := ⟨f' - 1, by omega⟩
    exact .altR (ih hlf.2 g (by omega))
  | starNil =>
    intro _ f' hf
    obtain ⟨g, rfl⟩ : ∃ g, f' = g + 1 := ⟨f' - 1, by omega⟩
    exact .starNil
  | starCons hda hdb iha ihb =>
    intro hlf f' hf
    simp only [LookFree] at hlf
    obtain ⟨g, rfl⟩ : ∃ g, f' = g + 1 := ⟨f' - 1, by omega⟩
    exact .starCons (iha hlf g (by omega)) (ihb (by simpa [LookFree] using hlf) g (by omega))
  | nlookC _ =>
    intro hlf; simp [LookFree] at hlf

/-- Cancellation of a common suffix. -/
theorem append_cancel {p q t : List Char} (h : p ++ t = q ++ t) : p = q :=
  (List.append_inj' h rfl).1

/-- For lookahead-free regexes a derivation depends only on the
consumed prefix: the suffix left over can be replaced arbitrarily. -/
theorem RMatchB_shift {r : Regex} {s t : List Char} {f : Nat}
    (hd : RMatchB r s t f) :
    LookFree r = true → ∀ q, s = q ++ t → ∀ v', RMatchB r (q ++ v') v' f := by
  induction hd with
  | @eps s f =>
    intro _ q hq v'
    obtain rfl : q = [] := by
      have h0 : q ++ s = [] ++ s := by rw [List.nil_append]; exact hq.symm
      exact append_cancel h0
    exact .eps
  | @chars cs c t f hm =>
    intro _ q hq v'
    obtain rfl : q = [c] := append_cancel (p := q) (by simpa using hq.symm)
    exact .chars hm
  | @cat a b s t u f hda hdb iha ihb =>
    intro hlf q hq v'
    simp only [LookFree, Bool.and_eq_true] at hlf
    obtain ⟨p1, hp1⟩ := RMatchB_append hda
    obtain ⟨p2, hp2⟩ := RMatchB_append hdb
    obtain rfl : q = p1 ++ p2 := by
      refine append_cancel (t := u) ?_
      rw [← hq, hp1, hp2, List.append_assoc]
    have ha' := iha hlf.1 p1 hp1 (p2 ++ v')
    have hb' := ihb hlf.2 p2 hp2 v'
    rw [List.append_assoc]
    exact .cat ha' hb'
  | @altL a b s t f hd ih =>
    intro hlf q hq v'
    simp only [LookFree, Bool.and_eq_true] at hlf
    exact .altL (ih hlf.1 q hq v')
  | @altR a b s t f hd ih =>
    intro hlf q hq v'
    simp only [LookFree, Bool.and_eq_true] at hlf
    exact .altR (ih hlf.2 q hq v')
  | @starNil r s f =>
    intro _ q hq v'
    obtain rfl : q = [] := by
      have h0 : q ++ s = [] ++ s := by rw [List.nil_append]; exact hq.symm
      exact append_cancel h0
    exact .starNil
  | @starCons r s t u f hda hdb iha ihb =>
    intro hlf q hq v'
    simp only [LookFree] at hlf
    obtain ⟨p1, hp1⟩ := RMatchB_append hda
    obtain ⟨p2, hp2⟩ := RMatchB_append hdb
    obtain rfl : q = p1 ++ p2 := by
      refine append_cancel (t := u) ?_
      rw [← hq, hp1, hp2, List.append_assoc]
    have ha' := iha hlf p1 hp1 (p2 ++ v')
    have hb' := ihb (by simpa [LookFree] using hlf) p2 hp2 v'
    rw [List.append_assoc]
    exact .starCons ha' hb'
  | nlookC _ =>
    intro hlf; simp [LookFree] at hlf

/-- A regex satisfying `NoM` never consumes the character `m`. -/
theorem NoM_consumed {r : Regex} {s t : List Char} {f : Nat}
    (hd : RMatchB r s t f) :
    NoM r = true → ∀ q, s = q ++ t → 'm' ∉ q := by
  induction hd with
  | @eps s f =>
    intro _ q hq
    obtain rfl : q = [] := by
      have h0 : q ++ s = [] ++ s := by rw [List.nil_append]; exact hq.symm
      exact append_cancel h0
    simp
  | @chars cs c t f hm =>
    intro hnm q hq
    obtain rfl : q = [c] := append_cancel (p := q) (by simpa using hq.symm)
    simp only [NoM, Bool.not_eq_true'] at hnm
    intro hmem
    obtain rfl : 'm' = c := by simpa using hmem
    have : cs.contains 'm' = true := by simpa using hm
    rw [this] at hnm
    exact absurd hnm (by simp)
  | @cat a b s t u f hda hdb iha ihb =>
    intro hnm q hq
    simp only [NoM, Bool.and_eq_true] at hnm
    obtain ⟨p1, hp1⟩ := RMatchB_append hda
    obtain ⟨p2, hp2⟩ := RMatchB_append hdb
    obtain rfl : q = p1 ++ p2 := by
      refine append_cancel (t := u) ?_
      rw [← hq, hp1, hp2, List.append_assoc]
    intro hmem
    rcases List.mem_append.1 hmem with hmem | hmem
    · exact iha hnm.1 p1 hp1 hmem
    · exact ihb hnm.2 p2 hp2 hmem
  | @altL a b s t f hd ih =>
    intro hnm q hq
    simp only [NoM, Bool.and_eq_true] at hnm
    exact ih hnm.1 q hq
  | @altR a b s t f hd ih =>
    intro hnm q hq
    simp only [NoM, Bool.and_eq_true] at hnm
    exact ih hnm.2 q hq
  | @starNil r s f =>
    intro _ q hq
    obtain rfl : q = [] := by
      have h0 : q ++ s = [] ++ s := by rw [List.nil_append]; exact hq.symm
      exact append_cancel h0
    simp
  | @starCons r s t u f hda hdb iha ihb =>
    intro hnm q hq
    simp only [NoM] at hnm
    obtain ⟨p1, hp1⟩ := RMatchB_append hda
    obtain ⟨p2, hp2⟩ := RMatchB_append hdb
    obtain rfl : q = p1 ++ p2 := by
      refine append_cancel (t := u) ?_
      rw [← hq, hp1, hp2, List.append_assoc]
    intro hmem
    rcases List.mem_append.1 hmem with hmem | hmem
    · exact iha hnm p1 hp1 hmem
    · exact ihb (by simpa [NoM] using hnm) p2 hp2 hmem
  | @nlookC r s f _ =>
    intro _ q hq
    obtain rfl : q = [] := by
      have h0 : q ++ s = [] ++ s := by rw [List.nil_append]; exact hq.symm
      exact append_cancel h0
    simp

/-- A regex satisfying `EndsM` always consumes an `m`-free word
followed by exactly one final `m`. -/
theorem EndsM_consumed {r : Regex} {s t : List Char} {f : Nat}
    (hd : RMatchB r s t f) :
    EndsM r = true → ∀ q, s = q ++ t → ∃ w, q = w ++ ['m'] ∧ 'm' ∉ w := by
  induction hd with
  | eps => intro hem; simp [EndsM] at hem
  | @chars cs c t f hm =>
    intro hem q hq
    have hcs : cs = ['m'] := by simpa [EndsM] using hem
    subst hcs
    obtain rfl : c = 'm' := by simpa using hm
    obtain rfl : q = ['m'] := append_cancel (p := q) (by simpa using hq.symm)
    exact ⟨[], rfl, by simp⟩
  | @cat a b s t u f hda hdb iha ihb =>
    intro hem q hq
    simp only [EndsM, Bool.and_eq_true] at hem
    obtain ⟨p1, hp1⟩ := RMatchB_append hda
    obtain ⟨p2, hp2⟩ := RMatchB_append hdb
    obtain rfl : q = p1 ++ p2 := by
      refine append_cancel (t := u) ?_
      rw [← hq, hp1, hp2, List.append_assoc]
    obtain ⟨w, rfl, hwm⟩ := ihb hem.2 p2 hp2
    have h1 := NoM_consumed hda hem.1 p1 hp1
    refine ⟨p1 ++ w, by simp, ?_⟩
    intro hmem
    rcases List.mem_append.1 hmem with hmem | hmem
    · exact h1 hmem
    · exact hwm hmem
  | @altL a b s t f hd ih =>
    intro hem q hq
    simp only [EndsM, Bool.and_eq_true] at hem
    exact ih hem.1 q hq
  | @altR a b s t f hd ih =>
    intro hem q hq
    simp only [EndsM, Bool.and_eq_true] at hem
    exact ih hem.2 q hq
  | starNil => intro hem; simp [EndsM] at hem
  | starCons _ _ _ _ => intro hem; simp [EndsM] at hem
  | nlookC _ => intro hem; simp [EndsM] at hem

/-- Two decompositions of a word as (`m`-free) ++ `m` :: rest agree. -/
theorem mfree_unique : ∀ (w w' x x' : List Char),
    w ++ 'm' :: x = w' ++ 'm' :: x' → 'm' ∉ w → 'm' ∉ w' → w = w' ∧ x = x' := by
  intro w
  induction w with
  | nil =>
    intro w' x x' h hw hw'
    cases w' with
    | nil => simpa using h
    | cons b w'' =>
      simp only [List.nil_append, List.cons_append, List.cons.injEq] at h
      exact absurd (show 'm' ∈ b :: w'' from by
        rw [h.1]; exact List.mem_cons_self b w'') hw'
  | cons a w ih =>
    intro w' x x' h hw hw'
    cases w' with
    | nil =>
      simp only [List.cons_append, List.nil_append, List.cons.injEq] at h
      exact absurd (show 'm' ∈ a :: w from by
        rw [← h.1]; exact List.mem_cons_self a w) hw
    | cons b w'' =>
      simp only [List.cons_append, List.cons.injEq] at h
      obtain ⟨rfl, h2⟩ := h
      have hw2 : 'm' ∉ w := fun hm => hw (List.mem_cons_of_mem a hm)
      have hw2' : 'm' ∉ w'' := fun hm => hw' (List.mem_cons_of_mem a hm)
      obtain ⟨rfl, rfl⟩ := ih w'' x x' h2 hw2 hw2'
      exact ⟨rfl, rfl⟩

/-- Stability of a match under replacement of the text after the
matched span: for a lookahead-free, `m`-terminated pattern, if the
pattern matched exactly the prefix `u` of `u ++ t`, it also matches
exactly `u` in `u ++ tail'` for any `tail'` of the same length as `t`.
-/
theorem matchEnd_stable {p : Regex} (hlf : LookFree p = true) (hem : EndsM p = true)
    {u t tail' : List Char}
    (h : matchEnd p (u ++ t) = some u.length) (hlen : tail'.length = t.length) :
    matchEnd p (u ++ tail') = some u.length := by
  obtain ⟨u₀, t₀, hsplit, hlen₀, _, hd⟩ := matchEnd_sound h
  obtain ⟨rfl, rfl⟩ := List.append_inj hsplit.symm hlen₀
  have hd' : RMatchB p (u₀ ++ tail') tail' (matchFuel (u₀ ++ tail')) := by
    have hs := RMatchB_shift hd hlf u₀ rfl tail'
    have hfe : matchFuel (u₀ ++ t₀) = matchFuel (u₀ ++ tail') := by
      simp [matchFuel, hlen]
    rw [hfe] at hs
    exact hs
  obtain ⟨y, hy⟩ := mrun_complete hd' (fun w => some w) ⟨tail', rfl⟩
  obtain ⟨t', hd'', hk⟩ := mrun_sound _ _ _ _ _ hy
  have hty : t' = y := by simpa using hk
  subst hty
  obtain ⟨q, hq⟩ := RMatchB_append hd''
  obtain ⟨w, hqw, hwm⟩ := EndsM_consumed hd'' hem q hq
  obtain ⟨w₀, hw₀, hw₀m⟩ := EndsM_consumed hd' hem u₀ rfl
  have hjoin : w ++ 'm' :: t' = w₀ ++ 'm' :: tail' := by
    have hqq : q ++ t' = u₀ ++ tail' := hq.symm
    rw [hqw, hw₀] at hqq
    simpa using hqq
  obtain ⟨hww, htt⟩ := mfree_unique _ _ _ _ hjoin hwm hw₀m
  unfold matchEnd
  rw [hy, htt]
  simp [List.length_append]

/-! ## Idempotence on the default (no-exclusion) configurations -/

/-- With `exclude_colors` falsy the built pattern is one of two fixed
regexes, depending on `extra_colors`. -/
theorem get_color_pattern_none (extra : Option Bool) :
    get_color_pattern extra none = if truthy extra then pat_extra else pat_base := by
  cases extra with
  | none => rfl
  | some b => cases b with
    | false => rfl
    | true => rfl

/-- Both no-exclusion patterns are lookahead-free. -/
theorem pattern_none_lookfree (extra : Option Bool) :
    LookFree (get_color_pattern extra none) = true := by
  rw [get_color_pattern_none]
  by_cases h : truthy extra = true
  · rw [h, if_pos rfl]; decide
  · simp only [Bool.not_eq_true] at h
    rw [h]; simp only [Bool.false_eq_true, if_false]; decide

/-- Both no-exclusion patterns match only `m`-free words followed by a
single final `m`. -/
theorem pattern_none_endsM (extra : Option Bool) :
    EndsM (get_color_pattern extra none) = true := by
  rw [get_color_pattern_none]
  by_cases h : truthy extra = true
  · rw [h, if_pos rfl]; decide
  · simp only [Bool.not_eq_true] at h
    rw [h]; simp only [Bool.false_eq_true, if_false]; decide

/-- Rescanning the output of the scan reproduces it chunk for chunk,
provided the pattern in use is lookahead-free and `m`-terminated. -/
theorem scanE_idem : ∀ (fl : Nat) (colors : Option Bool) (pat : Option Regex)
    (s : List Char) (out : List (List Char)),
    (∀ p, pat = some p → LookFree p = true ∧ EndsM p = true) →
    scanE fl colors pat s = .ok out →
    ∀ fl', out.flatten.length < fl' → scanE fl' colors pat out.flatten = .ok out := by
  intro fl
  induction fl with
  | zero => intro colors pat s out _ h; simp [scanE] at h
  | succ fl ih =>
    intro colors pat s out hpat h fl' hb
    obtain ⟨g, rfl⟩ : ∃ g, fl' = g + 1 := ⟨fl' - 1, by omega⟩
    cases s with
    | nil =>
      simp only [scanE] at h
      cases h
      simp [scanE]
    | cons c rest =>
      simp only [scanE] at h
      by_cases h1 : isSafeChar c
      · rw [if_pos h1] at h
        obtain ⟨a, ha, rfl⟩ := except_map_ok _ _ _ h
        have hfl : (([c] :: a) : List (List Char)).flatten = c :: a.flatten := by simp
        have hbf : a.flatten.length < g := by
          rw [hfl] at hb; simp only [List.length_cons] at hb; omega
        have hrec := ih colors pat rest a hpat ha g hbf
        rw [hfl]
        simp only [scanE, if_pos h1, hrec]
        rfl
      · rw [if_neg h1] at h
        by_cases h2 : (truthy colors && c.toNat == 0x1b && isOpenBracket rest) = true
        · rw [if_pos h2] at h
          have h2' := h2
          simp only [Bool.and_eq_true, beq_iff_eq] at h2'
          obtain ⟨⟨hcol, hesc⟩, hob⟩ := h2'
          cases pat with
          | none => simp at h
          | some p =>
            obtain ⟨hlf, hem⟩ := hpat p rfl
            cases hm : matchEnd p rest.tail with
            | none =>
              simp only [hm] at h
              obtain ⟨a, ha, rfl⟩ := except_map_ok _ _ _ h
              have hfl : ((['_'] :: a) : List (List Char)).flatten = '_' :: a.flatten := by
                simp
              have hbf : a.flatten.length < g := by
                rw [hfl] at hb; simp only [List.length_cons] at hb; omega
              have hrec := ih colors (some p) rest a hpat ha g hbf
              rw [hfl]
              simp only [scanE, show isSafeChar '_' = true from by decide, if_pos, hrec]
              rfl
            | some e =>
              simp only [hm] at h
              obtain ⟨a, ha, rfl⟩ := except_map_ok _ _ _ h
              obtain ⟨rest2, rfl⟩ : ∃ rest2, rest = '[' :: rest2 := by
                cases rest with
                | nil => simp [isOpenBracket] at hob
                | cons d r2 =>
                  simp only [isOpenBracket, beq_iff_eq] at hob
                  exact ⟨r2, by rw [hob]⟩
              simp only [List.tail_cons] at h ha hm hb
              -- decompose rest2 into matched prefix and remainder
              obtain ⟨u₀, t₀, hsplit, hlen₀, hle, _⟩ := matchEnd_sound hm
              have hu : rest2.take e = u₀ := by
                rw [hsplit, ← hlen₀, List.take_left]
              have ht : rest2.drop e = t₀ := by
                rw [hsplit, ← hlen₀, List.drop_left]
              rw [hu] at hb
              rw [ht] at ha
              simp only [List.tail_cons]
              rw [hu]
              have hflat : a.flatten.length = t₀.length := scanE_length _ _ _ _ _ ha
              have hfl : (((c :: '[' :: u₀) :: a) : List (List Char)).flatten =
                  c :: '[' :: (u₀ ++ a.flatten) := by simp
              have hbf : a.flatten.length < g := by
                rw [hfl] at hb
                simp only [List.length_cons, List.length_append] at hb
                omega
              have hrec := ih colors (some p) t₀ a hpat ha g hbf
              -- the match is stable under the sanitized tail
              have hm0 : matchEnd p (u₀ ++ t₀) = some u₀.length := by
                rw [← hsplit, hm, hlen₀]
              have hm' : matchEnd p (u₀ ++ a.flatten) = some u₀.length :=
                matchEnd_stable hlf hem hm0 hflat
              have hm'' : matchEnd p (u₀ ++ a.flatten) = some e := by
                rw [hm', hlen₀]
              have hsc : isSafeChar c = false := by
                rw [char_eq_of_toNat (show c.toNat = '\x1b'.toNat from hesc)]
                decide
              have hg : (truthy colors && c.toNat == 0x1b &&
                  isOpenBracket ('[' :: (u₀ ++ a.flatten))) = true := by
                simp [hcol, hesc, isOpenBracket]
              rw [hfl]
              simp only [scanE, hsc, Bool.false_eq_true, if_false, hg, if_true,
                List.tail_cons, hm'']
              rw [show (u₀ ++ a.flatten).take e = u₀ from by
                  rw [← hlen₀, List.take_left],
                show (u₀ ++ a.flatten).drop e = a.flatten from by
                  rw [← hlen₀, List.drop_left],
                hrec]
              rfl
        · rw [if_neg h2] at h
          obtain ⟨a, ha, rfl⟩ := except_map_ok _ _ _ h
          have hfl : ((['_'] :: a) : List (List Char)).flatten = '_' :: a.flatten := by simp
          have hbf : a.flatten.length < g := by
            rw [hfl] at hb; simp only [List.length_cons] at hb; omega
          have hrec := ih colors pat rest a hpat ha g hbf
          rw [hfl]
          simp only [scanE, show isSafeChar '_' = true from by decide, if_pos, hrec]
          rfl

/-- C10 (amended): with `exclude_colors` left at its default `None`,
`safe_print` is idempotent for every input string and every setting of
`colors` and `extra_colors`. -/
theorem C10_idempotence_amended (s : String) (colors extra_colors : Option Bool) :
    safe_print (safe_print s colors extra_colors none) colors extra_colors none =
      safe_print s colors extra_colors none := by
  obtain ⟨out, ho⟩ := scan_ok s.toList colors extra_colors none
  have h1 : safe_print s colors extra_colors none = String.mk out.flatten := by
    rw [safe_print_def, ho]
  rw [h1, safe_print_def]
  have hpat : ∀ p, sgr_pattern colors extra_colors none = some p →
      LookFree p = true ∧ EndsM p = true := by
    intro p hp
    unfold sgr_pattern at hp
    by_cases hcol : truthy colors = true
    · rw [if_pos hcol] at hp
      obtain rfl : get_color_pattern extra_colors none = p := by simpa using hp
      exact ⟨pattern_none_lookfree _, pattern_none_endsM _⟩
    · rw [if_neg hcol] at hp
      exact absurd hp (by simp)
  have hidem := scanE_idem _ _ _ _ _ hpat ho (out.flatten.length + 1) (by omega)
  have hscan : scan colors (sgr_pattern colors extra_colors none)
      (String.mk out.flatten).toList = .ok out := hidem
  rw [hscan]

/-- C10 counterexample: with the configuration
`exclude_colors = ["3m_"]`, the input `ESC "[3m" BEL` sanitizes to
`ESC "[3m_"`, but sanitizing a second time gives `"_[3m_"`: the `_`
that replaced the bell character makes the excluded token `3m_` appear
right after `ESC [`, so the lookahead now rejects the sequence and
`safe_print` is not idempotent for this configuration. -/
theorem C10_counterexample :
    safe_print "\x1b[3m\x07" (some true) (some true) (some ["3m_"]) = "\x1b[3m_" ∧
    safe_print (safe_print "\x1b[3m\x07" (some true) (some true) (some ["3m_"]))
        (some true) (some true) (some ["3m_"]) = "_[3m_" ∧
    safe_print (safe_print "\x1b[3m\x07" (some true) (some true) (some ["3m_"]))
        (some true) (some true) (some ["3m_"]) ≠
      safe_print "\x1b[3m\x07" (some true) (some true) (some ["3m_"]) :=
  ⟨by decide, by decide, by decide⟩

/-! ## Acceptance of well-formed 4-bit parameter lists (C9) -/

theorem rm_eps {s : List Char} {f : Nat} (hf : 1 ≤ f) : RMatchB .eps s s f := by
  obtain ⟨g, rfl⟩ : ∃ g, f = g + 1 := ⟨f - 1, by omega⟩
  exact .eps

theorem rm_chars {cs : List Char} {c : Char} {t : List Char} {f : Nat}
    (hm : c ∈ cs) (hf : 1 ≤ f) : RMatchB (.chars cs) (c :: t) t f := by
  obtain ⟨g, rfl⟩ : ∃ g, f = g + 1 := ⟨f - 1, by omega⟩
  exact .chars hm

theorem rm_cat {a b : Regex} {s t u : List Char} {ba bb : Nat}
    (ha : ∀ f, ba ≤ f → RMatchB a s t f) (hb : ∀ f, bb ≤ f → RMatchB b t u f) :
    ∀ f, max ba bb + 1 ≤ f → RMatchB (.cat a b) s u f := by
  intro f hf
  obtain ⟨g, rfl⟩ : ∃ g, f = g + 1 := ⟨f - 1, by omega⟩
  exact .cat (ha g (by omega)) (hb g (by omega))

theorem rm_altL {a b : Regex} {s t : List Char} {ba : Nat}
    (ha : ∀ f, ba ≤ f → RMatchB a s t f) :
    ∀ f, ba + 1 ≤ f → RMatchB (.alt a b) s t f := by
  intro f hf
  obtain ⟨g, rfl⟩ : ∃ g, f = g + 1 := ⟨f - 1, by omega⟩
  exact .altL (ha g (by omega))

theorem rm_altR {a b : Regex} {s t : List Char} {bb : Nat}
    (hb : ∀ f, bb ≤ f → RMatchB b s t f) :
    ∀ f, bb + 1 ≤ f → RMatchB (.alt a b) s t f := by
  intro f hf
  obtain ⟨g, rfl⟩ : ∃ g, f = g + 1 := ⟨f - 1, by omega⟩
  exact .altR (hb g (by omega))

theorem rm_starNil {r : Regex} {s : List Char} {f : Nat} (hf : 1 ≤ f) :
    RMatchB (.star r) s s f := by
  obtain ⟨g, rfl⟩ : ∃ g, f = g + 1 := ⟨f - 1, by omega⟩
  exact .starNil

theorem rm_starCons {r : Regex} {s t u : List Char} {b1 b2 : Nat}
    (h1 : ∀ f, b1 ≤ f → RMatchB r s t f)
    (h2 : ∀ f, b2 ≤ f → RMatchB (.star r) t u f) :
    ∀ f, max b1 b2 + 1 ≤ f → RMatchB (.star r) s u f := by
  intro f hf
  obtain ⟨g, rfl⟩ : ∃ g, f = g + 1 := ⟨f - 1, by omega⟩
  exact .starCons (h1 g (by omega)) (h2 g (by omega))

/-- The `;*` sub-pattern consumes any run of semicolons. -/
theorem semis_match (k : Nat) (rest : List Char) :
    ∀ f, k + 1 ≤ f → RMatchB (.star semi) (List.replicate k ';' ++ rest) rest f := by
  induction k with
  | zero => intro f hf; exact rm_starNil hf
  | succ n ih =>
    intro f hf
    exact rm_starCons (fun g hg => rm_chars (by decide) hg) ih f (by omega)

/-- Every enumerated 4-bit parameter is consumed by the parameter
alternation of the source grammar. -/
theorem validParam_match (p : List Char) (hp : validParamB p = true) (rest : List Char) :
    ∀ f, 20 ≤ f → RMatchB sgr4bitCode (p ++ rest) rest f := by
  unfold validParamB at hp
  split at hp
  · -- [c] : single digit
    intro f hf
    exact rm_altL (fun g hg => rm_chars (by simpa using hp) hg) f (by omega)
  · -- ['2', d], d in 1-5 or 7-9
    rename_i c d
    intro f hf
    simp only [List.contains_cons, Bool.or_eq_true, beq_iff_eq] at hp
    by_cases h15 : d = '1' ∨ d = '2' ∨ d = '3' ∨ d = '4' ∨ d = '5'
    · refine rm_altR (rm_altL (rm_cat (fun g hg => rm_chars (by decide) hg)
        (fun g hg => rm_chars ?_ hg))) f (by omega)
      rcases h15 with rfl | rfl | rfl | rfl | rfl <;> decide
    · have h79 : d = '7' ∨ d = '8' ∨ d = '9' := by
        rcases hp with h | h | h | h | h | h | h | h
        · exact absurd (Or.inl h) h15
        · exact absurd (Or.inr (Or.inl h)) h15
        · exact absurd (Or.inr (Or.inr (Or.inl h))) h15
        · exact absurd (Or.inr (Or.inr (Or.inr (Or.inl h)))) h15
        · exact absurd (Or.inr (Or.inr (Or.inr (Or.inr h)))) h15
        · exact Or.inl h
        · exact Or.inr (Or.inl h)
        · rcases h with h | h
          · exact Or.inr (Or.inr h)
          · simp at h
      refine rm_altR (rm_altR (rm_altL (rm_cat (fun g hg => rm_chars (by decide) hg)
        (fun g hg => rm_chars ?_ hg)))) f (by omega)
      rcases h79 with rfl | rfl | rfl <;> decide
  · -- ['3', d], d in 0-7 or d = '9'
    rename_i c d
    intro f hf
    simp only [Bool.or_eq_true, beq_iff_eq] at hp
    rcases hp with hp | rfl
    · exact rm_altR (rm_altR (rm_altR (rm_altL (rm_cat
        (fun g hg => rm_chars (by decide) hg)
        (fun g hg => rm_chars (by simpa using hp) hg))))) f (by omega)
    · exact rm_altR (rm_altR (rm_altR (rm_altR (rm_altL (rm_cat
        (fun g hg => rm_chars (by decide) hg)
        (rm_cat (fun g hg => rm_chars (by decide) hg)
          (fun g hg => rm_eps hg))))))) f (by omega)
  · -- ['4', d], d in 0-7 or d = '9'
    rename_i c d
    intro f hf
    simp only [Bool.or_eq_true, beq_iff_eq] at hp
    rcases hp with hp | rfl
    · exact rm_altR (rm_altR (rm_altR (rm_altR (rm_altR (rm_altL (rm_cat
        (fun g hg => rm_chars (by decide) hg)
        (fun g hg => rm_chars (by simpa using hp) hg))))))) f (by omega)
    · exact rm_altR (rm_altR (rm_altR (rm_altR (rm_altR (rm_altR (rm_altL (rm_cat
        (fun g hg => rm_chars (by decide) hg)
        (rm_cat (fun g hg => rm_chars (by decide) hg)
          (fun g hg => rm_eps hg))))))))) f (by omega)
  · -- ['9', d], d in 0-7
    rename_i c d
    intro f hf
    exact rm_altR (rm_altR (rm_altR (rm_altR (rm_altR (rm_altR (rm_altR (rm_altL (rm_cat
      (fun g hg => rm_chars (by decide) hg)
      (fun g hg => rm_chars (by simpa using hp) hg))))))))) f (by omega)
  · -- ['1', '0', d], d in 0-7
    rename_i c d
    intro f hf
    exact rm_altR (rm_altR (rm_altR (rm_altR (rm_altR (rm_altR (rm_altR (rm_altR (rm_cat
      (rm_cat (fun g hg => rm_chars (by decide) hg)
        (rm_cat (fun g hg => rm_chars (by decide) hg) (fun g hg => rm_eps hg)))
      (fun g hg => rm_chars (by simpa using hp) hg))))))))) f (by omega)
  · exact absurd hp (by simp)

/-- The `(;{param})*` chain consumes any `;`-separated run of valid
parameters. -/
theorem tailJoin_match : ∀ (ps : List (List Char)),
    (∀ p ∈ ps, validParamB p = true) → ∀ (rest : List Char),
    ∀ f, 22 * ps.length + 1 ≤ f →
      RMatchB (.star (.cat semi sgr4bitCode)) (tailJoin ps ++ rest) rest f := by
  intro ps
  induction ps with
  | nil => intro _ rest f hf; exact rm_starNil (by omega)
  | cons p ps ih =>
    intro hv rest f hf
    have hshape : tailJoin (p :: ps) ++ rest = ';' :: (p ++ (tailJoin ps ++ rest)) := by
      simp [tailJoin]
    rw [hshape]
    exact rm_starCons
      (rm_cat (fun g hg => rm_chars (by decide) hg)
        (validParam_match p (hv p (by simp)) (tailJoin ps ++ rest)))
      (ih (fun q hq => hv q (List.mem_cons_of_mem p hq)) rest)
      f (by simp only [List.length_cons] at hf ⊢; omega)

theorem tailJoin_length (ps : List (List Char)) : ps.length ≤ (tailJoin ps).length := by
  induction ps with
  | nil => simp [tailJoin]
  | cons p ps ih =>
    have : tailJoin (p :: ps) = ';' :: (p ++ tailJoin ps) := by simp [tailJoin]
    rw [this]
    simp only [List.length_cons, List.length_append]
    omega

/-- A body of the shape `;^k p1;p2;...;pn m` (leading semicolons, then
valid 4-bit parameters separated by single semicolons) is consumed in
full by the 4-bit alternative of either no-exclusion pattern. -/
theorem base_body_match (k : Nat) (params : List (List Char))
    (hv : ∀ p ∈ params, validParamB p = true) :
    ∀ f, 22 * (k + (joinParams params).length) + 30 ≤ f →
      RMatchB pat_base (List.replicate k ';' ++ (joinParams params ++ ['m'])) [] f := by
  cases params with
  | nil =>
    intro f hf
    exact rm_cat (rm_altL (rm_altL (semis_match k ['m'])))
      (fun g hg => rm_chars (by decide) hg) f (by omega)
  | cons p ps =>
    intro f hf
    have hshape : List.replicate k ';' ++ (joinParams (p :: ps) ++ ['m']) =
        List.replicate k ';' ++ (p ++ (tailJoin ps ++ ['m'])) := by
      simp [joinParams]
    have hjl : (joinParams (p :: ps)).length = p.length + (tailJoin ps).length := by
      simp [joinParams]
    have htjl := tailJoin_length ps
    rw [hshape]
    exact rm_cat (rm_altL (rm_altR (rm_cat (semis_match k (p ++ (tailJoin ps ++ ['m'])))
      (rm_cat (validParam_match p (hv p (by simp)) (tailJoin ps ++ ['m']))
        (tailJoin_match ps (fun q hq => hv q (List.mem_cons_of_mem p hq)) ['m'])))))
      (fun g hg => rm_chars (by decide) hg) f (by rw [hjl] at hf; omega)

/-- The same body is consumed in full by `get_color_pattern` for any
`extra_colors`, with no exclusions. -/
theorem body_match (extra : Option Bool) (k : Nat) (params : List (List Char))
    (hv : ∀ p ∈ params, validParamB p = true) :
    ∀ f, 22 * (k + (joinParams params).length) + 31 ≤ f →
      RMatchB (get_color_pattern extra none)
        (List.replicate k ';' ++ (joinParams params ++ ['m'])) [] f := by
  intro f hf
  rw [get_color_pattern_none]
  by_cases hx : truthy extra = true
  · rw [hx, if_pos rfl]
    exact rm_altL (base_body_match k params hv) f (by omega)
  · simp only [Bool.not_eq_true] at hx
    rw [hx]
    simp only [Bool.false_eq_true, if_false]
    exact base_body_match k params hv f (by omega)

/-- The compiled pattern reports a full-length match on such a body. -/
theorem C9_matchEnd (extra : Option Bool) (k : Nat) (params : List (List Char))
    (hv : ∀ p ∈ params, validParamB p = true) :
    matchEnd (get_color_pattern extra none)
        (List.replicate k ';' ++ (joinParams params ++ ['m'])) =
      some (List.replicate k ';' ++ (joinParams params ++ ['m'])).length := by
  have hblen : (List.replicate k ';' ++ (joinParams params ++ ['m'])).length =
      k + (joinParams params).length + 1 := by
    simp only [List.length_append, List.length_replicate, List.length_cons,
      List.length_nil]
    omega
  have hb : 22 * (k + (joinParams params).length) + 31 ≤
      matchFuel (List.replicate k ';' ++ (joinParams params ++ ['m'])) := by
    simp only [matchFuel, hblen]
    omega
  have hd := body_match extra k params hv _ hb
  obtain ⟨y, hy⟩ := mrun_complete hd (fun w => some w) ⟨[], rfl⟩
  obtain ⟨t', hd', hk⟩ := mrun_sound _ _ _ _ _ hy
  have hty : t' = y := by simpa using hk
  subst hty
  obtain ⟨q, hq⟩ := RMatchB_append hd'
  have hem := pattern_none_endsM extra
  obtain ⟨w, hqw, hwm⟩ := EndsM_consumed hd' hem q hq
  obtain ⟨w₀, hw₀, hw₀m⟩ := EndsM_consumed hd hem
    (List.replicate k ';' ++ (joinParams params ++ ['m'])) (by simp)
  have hjoin : w ++ 'm' :: t' = w₀ ++ 'm' :: [] := by
    have hqq : q ++ t' = List.replicate k ';' ++ (joinParams params ++ ['m']) := hq.symm
    rw [hqw, hw₀] at hqq
    simpa using hqq
  obtain ⟨-, hy0⟩ := mfree_unique _ _ _ _ hjoin hwm hw₀m
  unfold matchEnd
  rw [hy, hy0]
  simp

/-- C9 (amended): with `colors` enabled and no exclusions, every SGR
candidate whose body consists of valid 4-bit parameters separated by
single semicolons, with any number of leading empty parameters (and
possibly no parameters at all), is accepted and copied verbatim.
Interior empty parameters are not tolerated (see the counterexample).
-/
theorem C9_leading_empty_and_params_accepted (colors extra_colors : Option Bool)
    (hcol : truthy colors = true) (k : Nat) (params : List (List Char))
    (hv : ∀ p ∈ params, validParamB p = true) :
    safe_print
        (String.mk ('\x1b' :: '[' ::
          (List.replicate k ';' ++ (joinParams params ++ ['m']))))
        colors extra_colors none =
      String.mk ('\x1b' :: '[' ::
        (List.replicate k ';' ++ (joinParams params ++ ['m']))) := by
  have hg : (truthy colors && '\x1b'.toNat == 0x1b &&
      isOpenBracket ('[' :: (List.replicate k ';' ++ (joinParams params ++ ['m'])))) =
        true := by
    simp [hcol, isOpenBracket]
  have hme := C9_matchEnd extra_colors k params hv
  have hscan : scanE ((List.replicate k ';' ++ (joinParams params ++ ['m'])).length + 2 + 1)
      colors (sgr_pattern colors extra_colors none)
      ('\x1b' :: '[' :: (List.replicate k ';' ++ (joinParams params ++ ['m']))) =
      .ok [('\x1b' :: '[' :: (List.replicate k ';' ++ (joinParams params ++ ['m'])))] := by
    simp only [scanE, show isSafeChar '\x1b' = false from by decide, Bool.false_eq_true,
      if_false, hg, if_true, sgr_pattern_some colors extra_colors none hcol,
      List.tail_cons, hme, List.take_length, List.drop_length]
    rfl
  rw [safe_print_def]
  have hsc2 : scan colors (sgr_pattern colors extra_colors none)
      (String.mk ('\x1b' :: '[' ::
        (List.replicate k ';' ++ (joinParams params ++ ['m'])))).toList =
      .ok [('\x1b' :: '[' :: (List.replicate k ';' ++ (joinParams params ++ ['m'])))] :=
    hscan
  rw [hsc2]
  simp

/-- C9 witness: the amended statement at `k = 2` with parameter list
`["1", "2"]`, i.e. the input `ESC "[;;1;2m"`, is returned unchanged. -/
theorem C9_leading_empty_and_params_accepted_witness :
    (truthy (some true) = true ∧
      (∀ p ∈ [['1'], ['2']], validParamB p = true)) ∧
    safe_print
        (String.mk ('\x1b' :: '[' ::
          (List.replicate 2 ';' ++ (joinParams [['1'], ['2']] ++ ['m']))))
        (some true) (some true) none =
      String.mk ('\x1b' :: '[' ::
        (List.replicate 2 ';' ++ (joinParams [['1'], ['2']] ++ ['m']))) :=
  ⟨⟨rfl, by decide⟩,
    C9_leading_empty_and_params_accepted (some true) (some true) rfl 2
      [['1'], ['2']] (by decide)⟩

/-- C9 counterexample: an empty parameter *between* two valid 4-bit
parameters is rejected, contrary to the claim: `ESC "[1;;2m"` is not
copied verbatim but redacted to `"_[1;;2m"`. -/
theorem C9_counterexample :
    safe_print "\x1b[1;;2m" (some true) (some true) none = "_[1;;2m" ∧
    safe_print "\x1b[1;;2m" (some true) (some true) none ≠ "\x1b[1;;2m" :=
  ⟨by decide, by decide⟩

end SP
